import Mathlib

/-!
Verification of the data-transformation logic of the Titanic dashboard
(`src/app.py`) against its natural-language specification.

Text is modelled as `List Char`.  The Polars string and dataframe
operations used by the app are embedded as executable Lean functions:

* `splitCS`     — `Series.str.split(", ")` (every occurrence, leftmost first,
                  empty segments kept), specialised to the separator `", "`;
* `splitDot`    — `Series.str.split(".")`;
* `joinSep`     — `Series.list.join(sep)`;
* `extractTitle`— the title pipeline of `analyze_passenger_names`
                  (app.py lines 222-228);
* `captSearch`  — `Series.str.contains(", Capt.")` with the default
                  Rust regex semantics (the dot matches any one character
                  except a newline);
* `containsLit` — `Series.str.contains(..., literal=True)`;
* `substringFilter` — the lazy substring filter of `display_basic_info`
                  (app.py lines 73-88);
* `rangeFilter` — the age/fare slider filter of `create_scatter_plots`
                  (app.py lines 303-308), with Polars null semantics
                  (a null comparison yields null, which `filter` drops);
* `valueCounts`, `proportionTable` — `value_counts` plus the proportion
                  column of `analyze_passenger_sex` / `analyze_embarkation_ports`.

Machine floats of the source are modelled as exact rationals; the claims
settled here only compare, never round.
-/

/-- Text: a string modelled as a list of characters. -/
abbrev Txt := List Char

/-- Polars `str.split(", ")` (app.py line 222): split on every occurrence of
the two-character separator `", "`, scanning from the left, non-overlapping,
keeping empty segments.  Splitting the empty string yields `[[]]`. -/
def splitCS : Txt → List Txt
  | [] => [[]]
  | [c] => [[c]]
  | c :: d :: rest =>
    if c = ',' ∧ d = ' ' then [] :: splitCS rest
    else ((splitCS (d :: rest)).modifyHead (fun t => c :: t))

/-- Polars `str.split(".")` (app.py line 225): split on every dot,
keeping empty segments. -/
def splitDot : Txt → List Txt
  | [] => [[]]
  | c :: rest =>
    if c = '.' then [] :: splitDot rest
    else ((splitDot rest).modifyHead (fun t => c :: t))

/-- Polars `list.join(sep)` (app.py line 224): concatenate the pieces with
the separator between consecutive pieces. -/
def joinSep (sep : Txt) : List Txt → Txt
  | [] => []
  | [x] => x
  | x :: y :: rest => x ++ sep ++ joinSep sep (y :: rest)

/-- The title pipeline of `analyze_passenger_names` (app.py lines 222-226):
split the name on `", "`, reverse the list of pieces, join them with a single
space, split the result on `"."` and take the first segment. -/
def extractTitle (name : Txt) : Txt :=
  (splitDot (joinSep [' '] (splitCS name).reverse)).headD []

/-- The text strictly before the first `'.'` of a string (the whole string
when it has no dot).  This is the wording of spec §4.1 step 3: the first
segment of the dot-split is the pre-dot text. -/
def preDot : Txt → Txt
  | [] => []
  | c :: t => if c = '.' then [] else c :: preDot t

/-- The amended spec description of the title algorithm: split the name on
EVERY occurrence of `", "`, reverse the pieces, rejoin them with a single
space, and keep the text before the first dot. -/
def amendedTitleSpec (name : Txt) : Txt :=
  preDot (joinSep [' '] (splitCS name).reverse)

/-- The algorithm exactly as claim C1 words it: split the name on the FIRST
`", "` only, into (surname, remainder), reverse the two parts, rejoin them
with a single space, split on `"."` and take the first segment.  The
remainder after the first `", "` is recovered by rejoining the later pieces
of `splitCS` with `", "`. -/
def claimedTitleFirstSplit (name : Txt) : Txt :=
  match splitCS name with
  | [] => []
  | [p] => (splitDot p).headD []
  | p :: rest => (splitDot (joinSep [',', ' '] rest ++ ' ' :: p)).headD []

/-- Generic insertion into a list sorted by the boolean relation `le`. -/
def insertBy {β : Type} (le : β → β → Bool) (p : β) : List β → List β
  | [] => [p]
  | q :: t => if le p q then p :: q :: t else q :: insertBy le p t

/-- Insertion sort by the boolean relation `le`; deterministic model of the
Polars `sort` used at app.py lines 228 and 101. -/
def sortBy {β : Type} (le : β → β → Bool) : List β → List β
  | [] => []
  | p :: t => insertBy le p (sortBy le t)

/-- Polars `value_counts` (app.py lines 95, 187, 227): each distinct value
paired with its number of occurrences (the length of the sublist of equal
values). -/
def valueCounts {α : Type} [DecidableEq α] (xs : List α) : List (α × Nat) :=
  xs.dedup.map (fun v => (v, (xs.filter (fun x => decide (x = v))).length))

/-- The reported title table (app.py lines 222-231): `value_counts`, sorted
by descending count, first 10 rows (`head(10)`). -/
def titlesReport (names : List Txt) : List (Txt × Nat) :=
  (sortBy (fun p q => decide (q.2 ≤ p.2)) (valueCounts (names.map extractTitle))).take 10

/-! Unfolding equations and basic facts about the splitters. -/

theorem splitCS_cc (c d : Char) (rest : Txt) :
    splitCS (c :: d :: rest) =
      if c = ',' ∧ d = ' ' then [] :: splitCS rest
      else ((splitCS (d :: rest)).modifyHead (fun t => c :: t)) := by
  rfl

theorem splitCS_ne_nil : ∀ s, splitCS s ≠ []
  | [] => by simp [splitCS]
  | [c] => by simp [splitCS]
  | c :: d :: rest => by
    rw [splitCS_cc]
    split
    · simp
    · have h := splitCS_ne_nil (d :: rest)
      cases hh : splitCS (d :: rest) with
      | nil => exact absurd hh h
      | cons a as => simp [hh]

theorem modifyHead_append_left {α : Type} (f : α → α) (l₁ l₂ : List α) (h : l₁ ≠ []) :
    (l₁ ++ l₂).modifyHead f = l₁.modifyHead f ++ l₂ := by
  cases l₁ with
  | nil => exact absurd rfl h
  | cons a t => simp

/-- Splitting on `", "` cuts exactly at an explicit `", "` that is appended
between two pieces: the scan cannot overlap into it, because the second
separator character differs from the first. -/
theorem splitCS_append_sep : ∀ x r, splitCS (x ++ ',' :: ' ' :: r) = splitCS x ++ splitCS r
  | [], r => by
    rw [List.nil_append, splitCS_cc, if_pos ⟨rfl, rfl⟩]
    rfl
  | [c], r => by
    have hne : ¬ (c = ',' ∧ ',' = ' ') := by
      rintro ⟨-, h⟩
      exact absurd h (by decide)
    rw [List.cons_append, List.nil_append, splitCS_cc, if_neg hne,
      splitCS_cc, if_pos ⟨rfl, rfl⟩]
    rfl
  | c :: d :: x, r => by
    by_cases h : c = ',' ∧ d = ' '
    · obtain ⟨rfl, rfl⟩ := h
      rw [List.cons_append, List.cons_append, splitCS_cc, if_pos ⟨rfl, rfl⟩,
        splitCS_append_sep x r, splitCS_cc, if_pos ⟨rfl, rfl⟩]
      rfl
    · have e1 : splitCS ((c :: d :: x) ++ ',' :: ' ' :: r)
          = (splitCS ((d :: x) ++ ',' :: ' ' :: r)).modifyHead (fun t => c :: t) := by
        rw [show (c :: d :: x) ++ ',' :: ' ' :: r = c :: d :: (x ++ ',' :: ' ' :: r) from rfl]
        rw [splitCS_cc, if_neg h]
        rfl
      rw [e1, splitCS_append_sep (d :: x) r,
        modifyHead_append_left _ _ _ (splitCS_ne_nil (d :: x)),
        splitCS_cc, if_neg h]

theorem splitCS_cons_ne (c : Char) (s : Txt) (hc : c ≠ ',') :
    splitCS (c :: s) = (splitCS s).modifyHead (fun t => c :: t) := by
  cases s with
  | nil => simp [splitCS]
  | cons d t =>
    rw [splitCS_cc, if_neg (fun hcd => hc hcd.1)]

theorem modifyHead_modifyHead_left {α : Type} (f g : α → α) (l : List α) (h : l ≠ []) :
    (l.modifyHead g).modifyHead f = l.modifyHead (fun a => f (g a)) := by
  cases l with
  | nil => exact absurd rfl h
  | cons a t => simp

/-- If a piece `y` is `", "`-free (splitting leaves it whole), then gluing
text starting with a dot onto it only extends the first piece of the split:
the boundary cannot create a new `", "` occurrence. -/
theorem splitCS_append_dot : ∀ y w, splitCS y = [y] →
    splitCS (y ++ '.' :: w) = (splitCS ('.' :: w)).modifyHead (fun t => y ++ t)
  | [], w, _ => by
    rw [List.nil_append]
    cases hh : splitCS ('.' :: w) with
    | nil => exact absurd hh (splitCS_ne_nil _)
    | cons a as => simp
  | [c], w, _ => by
    have h1 : splitCS (c :: '.' :: w)
        = (splitCS ('.' :: w)).modifyHead (fun t => c :: t) := by
      rw [splitCS_cc, if_neg (by rintro ⟨-, h⟩; exact absurd h (by decide))]
    rw [List.cons_append, List.nil_append, h1]
    rfl
  | c :: d :: y, w, hfree => by
    have hnotsep : ¬ (c = ',' ∧ d = ' ') := by
      intro h
      rw [splitCS_cc, if_pos h] at hfree
      injection hfree with h1 h2
      simp at h1
    have htail : splitCS (d :: y) = [d :: y] := by
      rw [splitCS_cc, if_neg hnotsep] at hfree
      cases hh : splitCS (d :: y) with
      | nil => exact absurd hh (splitCS_ne_nil _)
      | cons a as =>
        rw [hh, List.modifyHead_cons] at hfree
        injection hfree with h1 h2
        injection h1 with h3 h4
        rw [h2, h4]
    have e1 : splitCS ((c :: d :: y) ++ '.' :: w)
        = (splitCS ((d :: y) ++ '.' :: w)).modifyHead (fun t => c :: t) := by
      rw [show (c :: d :: y) ++ '.' :: w = c :: d :: (y ++ '.' :: w) from rfl]
      rw [splitCS_cc, if_neg hnotsep]
      rfl
    rw [e1, splitCS_append_dot (d :: y) w htail,
      modifyHead_modifyHead_left _ _ _ (splitCS_ne_nil _)]
    rfl

theorem splitDot_cons (c : Char) (t : Txt) :
    splitDot (c :: t) =
      if c = '.' then [] :: splitDot t
      else ((splitDot t).modifyHead (fun s => c :: s)) := by
  rfl

theorem splitDot_ne_nil : ∀ s, splitDot s ≠ []
  | [] => by simp [splitDot]
  | c :: t => by
    rw [splitDot_cons]
    split
    · simp
    · cases hh : splitDot t with
      | nil => exact absurd hh (splitDot_ne_nil t)
      | cons a as => simp [hh]

/-- The first segment of the dot-split is exactly the pre-dot text. -/
theorem splitDot_headD : ∀ s, (splitDot s).headD [] = preDot s
  | [] => rfl
  | c :: t => by
    rw [splitDot_cons, preDot]
    by_cases hc : c = '.'
    · rw [if_pos hc, if_pos hc]
      rfl
    · rw [if_neg hc, if_neg hc]
      cases hh : splitDot t with
      | nil => exact absurd hh (splitDot_ne_nil t)
      | cons a as =>
        have ih := splitDot_headD t
        rw [hh] at ih
        rw [List.modifyHead_cons]
        simp only [List.headD_cons] at ih ⊢
        rw [ih]

theorem preDot_append : ∀ y t, (∀ c ∈ y, c ≠ '.') → preDot (y ++ '.' :: t) = y
  | [], t, _ => by simp [preDot]
  | c :: y, t, h => by
    rw [List.cons_append, preDot, if_neg (h c (by simp)),
      preDot_append y t (fun d hd => h d (by simp [hd]))]

theorem joinSep_cons (sep x : Txt) : ∀ l, l ≠ [] →
    joinSep sep (x :: l) = x ++ sep ++ joinSep sep l
  | [], h => absurd rfl h
  | _ :: _, _ => rfl

/-- The code's title extraction agrees, on every name, with the amended spec
description (reverse all comma-space pieces, rejoin, keep the pre-dot text). -/
theorem extractTitle_eq_preDot (name : Txt) :
    extractTitle name = amendedTitleSpec name := by
  rw [extractTitle, amendedTitleSpec, splitDot_headD]

/-- A block `Y. Z` whose halves are `", "`-free is itself `", "`-free: no
`", "` occurrence can span the `". "` boundary. -/
theorem splitCS_dot_block (Y Z : Txt) (hY : splitCS Y = [Y]) (hZ : splitCS Z = [Z]) :
    splitCS (Y ++ '.' :: ' ' :: Z) = [Y ++ '.' :: ' ' :: Z] := by
  rw [splitCS_append_dot Y (' ' :: Z) hY,
    splitCS_cons_ne '.' (' ' :: Z) (by decide),
    splitCS_cons_ne ' ' Z (by decide), hZ]
  rfl

/-- C2 (amended): for every name of the form `"X, Y. Z"` in which `Y` and `Z`
contain no `", "` and `Y` contains no `"."`, the Title Extractor returns
exactly `Y` — whether or not `Z` is empty.  (`", "`-freeness is expressed as
`splitCS` leaving the piece whole.) -/
theorem title_form_amended (X Y Z : Txt) (hY : splitCS Y = [Y]) (hZ : splitCS Z = [Z])
    (hdot : '.' ∉ Y) :
    extractTitle (X ++ ',' :: ' ' :: (Y ++ '.' :: ' ' :: Z)) = Y := by
  have hrev : (splitCS X).reverse ≠ [] := by
    rw [ne_eq, List.reverse_eq_nil_iff]
    exact splitCS_ne_nil X
  rw [extractTitle_eq_preDot, amendedTitleSpec, splitCS_append_sep,
    splitCS_dot_block Y Z hY hZ, List.reverse_append, List.reverse_singleton,
    List.singleton_append, joinSep_cons _ _ _ hrev]
  have hY2 : ∀ c ∈ Y, c ≠ '.' := fun c hc he => hdot (he ▸ hc)
  have hshape : (Y ++ '.' :: ' ' :: Z) ++ [' '] ++ joinSep [' '] (splitCS X).reverse
      = Y ++ '.' :: (' ' :: Z ++ ' ' :: joinSep [' '] (splitCS X).reverse) := by
    simp
  rw [hshape, preDot_append Y _ hY2]

def braundSurname : Txt := ['B', 'r', 'a', 'u', 'n', 'd']

def braundTitle : Txt := ['M', 'r']

def braundGiven : Txt := ['O', 'w', 'e', 'n', ' ', 'H', 'a', 'r', 'r', 'i', 's']

/-- Witness for C2 (amended) at the spec's own concrete scenario
`"Braund, Mr. Owen Harris"`: the extracted title is `"Mr"` although the
given-names part is nonempty. -/
theorem title_form_amended_witness :
    extractTitle (braundSurname ++ ',' :: ' ' :: (braundTitle ++ '.' :: ' ' :: braundGiven))
      = braundTitle :=
  title_form_amended braundSurname braundTitle braundGiven (by decide) (by decide) (by decide)

/-- Counterexample to C2 as stated: for `X = "a"`, `Y = "b"`, `Z = "c"` the
extractor returns `"b" = Y` even though `Z` is nonempty, refuting the
claimed equivalence at this input. -/
theorem title_form_iff_cex :
    ¬ ((extractTitle (['a'] ++ ',' :: ' ' :: (['b'] ++ '.' :: ' ' :: ['c'])) = ['b']) ↔
      ((['c'] : Txt) = [] ∧ '.' ∉ (['b'] : Txt))) := by
  decide

theorem insertBy_perm {β : Type} (le : β → β → Bool) (p : β) :
    ∀ l, (insertBy le p l).Perm (p :: l)
  | [] => List.Perm.refl _
  | q :: t => by
    rw [insertBy]
    split
    · exact List.Perm.refl _
    · exact ((insertBy_perm le p t).cons q).trans (List.Perm.swap p q t)

theorem sortBy_perm {β : Type} (le : β → β → Bool) : ∀ l, (sortBy le l).Perm l
  | [] => List.Perm.refl _
  | p :: t => (insertBy_perm le p (sortBy le t)).trans ((sortBy_perm le t).cons p)

theorem insertBy_pairwise {β : Type} (le : β → β → Bool)
    (htrans : ∀ a b c, le a b = true → le b c = true → le a c = true)
    (htot : ∀ a b, le a b = true ∨ le b a = true) (p : β) :
    ∀ l, l.Pairwise (fun a b => le a b = true) →
      (insertBy le p l).Pairwise (fun a b => le a b = true)
  | [], _ => by simp [insertBy]
  | q :: t, hl => by
    rw [List.pairwise_cons] at hl
    obtain ⟨hq, ht⟩ := hl
    rw [insertBy]
    split
    case isTrue h =>
      rw [List.pairwise_cons]
      refine ⟨?_, List.pairwise_cons.mpr ⟨hq, ht⟩⟩
      intro b hb
      rcases List.mem_cons.mp hb with rfl | hb
      · exact h
      · exact htrans p q b h (hq b hb)
    case isFalse h =>
      rw [List.pairwise_cons]
      refine ⟨?_, insertBy_pairwise le htrans htot p t ht⟩
      intro b hb
      rcases List.mem_cons.mp ((insertBy_perm le p t).mem_iff.mp hb) with rfl | hb
      · rcases htot b q with hpq | hqp
        · exact absurd hpq h
        · exact hqp
      · exact hq b hb

theorem sortBy_pairwise {β : Type} (le : β → β → Bool)
    (htrans : ∀ a b c, le a b = true → le b c = true → le a c = true)
    (htot : ∀ a b, le a b = true ∨ le b a = true) :
    ∀ l, (sortBy le l).Pairwise (fun a b => le a b = true)
  | [] => List.Pairwise.nil
  | p :: t => insertBy_pairwise le htrans htot p _ (sortBy_pairwise le htrans htot t)

/-- C1 (amended): for every name string, the Title Extractor computes the
title group by splitting the name on EVERY occurrence of `", "`, reversing
the pieces and rejoining them with a single space, then taking the first
dot-split segment (the pre-dot text); the reported result pairs each such
string with its count, sorted by descending count, top 10. -/
theorem title_report_correct (names : List Txt) :
    (∀ name, extractTitle name = amendedTitleSpec name) ∧
    (titlesReport names).Pairwise (fun p q => q.2 ≤ p.2) ∧
    (∀ p ∈ titlesReport names,
      p.2 = ((names.map extractTitle).filter (fun s => decide (s = p.1))).length) := by
  refine ⟨extractTitle_eq_preDot, ?_, ?_⟩
  · have hp := sortBy_pairwise (fun p q : Txt × Nat => decide (q.2 ≤ p.2))
      (fun a b c h1 h2 => by
        simp only [decide_eq_true_eq] at h1 h2 ⊢
        exact le_trans h2 h1)
      (fun a b => by
        rcases le_total b.2 a.2 with h | h
        · exact Or.inl (decide_eq_true h)
        · exact Or.inr (decide_eq_true h))
      (valueCounts (names.map extractTitle))
    exact (hp.sublist (List.take_sublist 10 _)).imp (fun h => by simpa using h)
  · intro p hp
    have h1 : p ∈ sortBy (fun p q : Txt × Nat => decide (q.2 ≤ p.2))
        (valueCounts (names.map extractTitle)) := List.take_subset 10 _ hp
    have h2 : p ∈ valueCounts (names.map extractTitle) :=
      (sortBy_perm _ _).mem_iff.mp h1
    rw [valueCounts] at h2
    obtain ⟨v, hv, rfl⟩ := List.mem_map.mp h2
    rfl

def multiCommaName : Txt := ['a', ',', ' ', 'b', ',', ' ', 'c', '.', ' ', 'd']

/-- Counterexample to C1 as stated: on the name `"a, b, c. d"` the claimed
algorithm (split on the FIRST `", "` only) yields `"b, c"` while the code
(split on every `", "`) yields `"c"`. -/
theorem title_first_split_cex :
    claimedTitleFirstSplit multiCommaName ≠ extractTitle multiCommaName := by
  decide

def braundFullName : Txt :=
  ['B', 'r', 'a', 'u', 'n', 'd', ',', ' ', 'M', 'r', '.', ' ',
   'O', 'w', 'e', 'n', ' ', 'H', 'a', 'r', 'r', 'i', 's']

/-- Witness for C1 (amended): on the one-name dataset
`["Braund, Mr. Owen Harris"]` the reported pair `("Mr", 1)` carries the
correct occurrence count. -/
theorem title_report_correct_witness :
    ((['M', 'r'] : Txt), 1).2
      = (([braundFullName].map extractTitle).filter
          (fun s => decide (s = (['M', 'r'] : Txt)))).length :=
  (title_report_correct [braundFullName]).2.2 ((['M', 'r'] : Txt), 1) (by decide)

/-- One row of the Titanic table (spec §3, PassengerRecord): identifier,
survival flag (0/1), class (1/2/3), name, sex, nullable numeric age and
fare, nullable embarkation code.  Machine floats are modelled as exact
rationals. -/
structure Passenger where
  passengerId : Nat
  survived : Nat
  pclass : Nat
  name : Txt
  sex : Txt
  age : Option ℚ
  fare : Option ℚ
  embarked : Option Txt
deriving DecidableEq

/-- The six literal characters `", Capt"` of the pattern `", Capt."`. -/
def captStem : Txt := [',', ' ', 'C', 'a', 'p', 't']

/-- One regex-match attempt of the pattern `", Capt."` at the start of `s`.
App.py line 250 calls `str.contains(", Capt.")` WITHOUT `literal=True`, so
Polars treats the pattern as a Rust regex: the six characters `", Capt"` are
literal and the final dot consumes one further character, which may be any
character EXCEPT a newline — Rust regex `.` never matches `'\n'` unless the
`s` flag is set, and the code sets no flag. -/
def captHere (s : Txt) : Bool :=
  decide (s.take 6 = captStem) &&
    (match s.drop 6 with
      | [] => false
      | c :: _ => decide (c ≠ '\n'))

/-- Regex search for `", Capt."` at any position of `s`. -/
def captSearch : Txt → Bool
  | [] => false
  | c :: t => captHere (c :: t) || captSearch t

/-- The captain lookup of `analyze_passenger_names` (app.py line 250):
`df.filter(pl.col("Name").str.contains(", Capt."))`. -/
def captainRows (rows : List Passenger) : List Passenger :=
  rows.filter (fun r => captSearch r.name)

theorem captHere_iff (s : Txt) :
    captHere s = true ↔ ∃ c v, s = captStem ++ c :: v ∧ c ≠ '\n' := by
  rw [captHere, Bool.and_eq_true, decide_eq_true_eq]
  constructor
  · rintro ⟨htake, hrest⟩
    rcases hd : s.drop 6 with - | ⟨c, v⟩
    · rw [hd] at hrest
      exact Bool.noConfusion hrest
    · rw [hd] at hrest
      refine ⟨c, v, ?_, of_decide_eq_true hrest⟩
      conv_lhs => rw [← List.take_append_drop 6 s, htake, hd]
  · rintro ⟨c, v, rfl, hc⟩
    refine ⟨?_, ?_⟩
    · rw [show (6 : Nat) = captStem.length from rfl]
      exact List.take_left captStem (c :: v)
    · have hd : (captStem ++ c :: v).drop 6 = c :: v := by
        rw [show (6 : Nat) = captStem.length from rfl]
        exact List.drop_left captStem (c :: v)
      rw [hd]
      exact decide_eq_true hc

theorem captSearch_iff : ∀ s, captSearch s = true ↔
    ∃ u c v, s = u ++ captStem ++ c :: v ∧ c ≠ '\n'
  | [] => by
    constructor
    · intro h
      exact Bool.noConfusion h
    · rintro ⟨u, c, v, h, -⟩
      exfalso
      have hlen := congrArg List.length h
      rw [List.length_nil, List.length_append, List.length_append, List.length_cons] at hlen
      have h6 : captStem.length = 6 := rfl
      omega
  | a :: t => by
    rw [captSearch, Bool.or_eq_true, captHere_iff, captSearch_iff t]
    constructor
    · rintro (⟨c, v, h, hc⟩ | ⟨u, c, v, h, hc⟩)
      · exact ⟨[], c, v, by simpa using h, hc⟩
      · exact ⟨a :: u, c, v, by simp [h], hc⟩
    · rintro ⟨u, c, v, h, hc⟩
      cases u with
      | nil =>
        exact Or.inl ⟨c, v, by simpa using h, hc⟩
      | cons b u2 =>
        rw [List.cons_append, List.cons_append] at h
        injection h with h1 h2
        exact Or.inr ⟨u2, c, v, h2, hc⟩

/-- C3 (amended): the captain lookup selects exactly the rows whose Name
matches the REGEX `", Capt."` — the literal text `", Capt"` followed by one
character that may be anything EXCEPT a newline (Rust regex `.`, as used by
Polars, never matches `'\n'`) — and it never consults the Title Extractor
output: membership depends only on the row's name field. -/
theorem captain_detection_regex (rows : List Passenger) (r : Passenger) :
    r ∈ captainRows rows ↔
      r ∈ rows ∧ ∃ u c v, r.name = u ++ captStem ++ c :: v ∧ c ≠ '\n' := by
  rw [captainRows, List.mem_filter, captSearch_iff]

/-- A row whose name is `"q, Captain"`: the regex `", Capt."` matches (the
dot consumes the letter `a`) but the literal text `", Capt."` does not
occur. -/
def pseudoCaptain : Passenger :=
  { passengerId := 1, survived := 0, pclass := 1,
    name := ['q', ',', ' ', 'C', 'a', 'p', 't', 'a', 'i', 'n'],
    sex := ['m'], age := none, fare := none, embarked := none }

/-- Boolean test that `p` is an initial segment of `s`. -/
def startsWithTxt : Txt → Txt → Bool
  | _, [] => true
  | [], _ :: _ => false
  | c :: s, d :: p => decide (c = d) && startsWithTxt s p

/-- Literal (non-regex) substring containment: the semantics of Polars
`str.contains(pattern, literal=True)` as used by the substring filter
(app.py lines 76 and 78). -/
def containsLit : Txt → Txt → Bool
  | [], needle => startsWithTxt [] needle
  | c :: t, needle => startsWithTxt (c :: t) needle || containsLit t needle

def captLiteral : Txt := [',', ' ', 'C', 'a', 'p', 't', '.']

/-- Counterexample to C3 as stated: the code selects the `"q, Captain"` row
although its name does not contain the literal text `", Capt."` (with the
dot matching only a dot character). -/
theorem captain_literal_cex :
    captainRows [pseudoCaptain] = [pseudoCaptain] ∧
      containsLit pseudoCaptain.name captLiteral = false := by
  decide

/-- The slider filter of `create_scatter_plots` (app.py lines 303-308):
`(Age >= a) & (Age <= b) & (Fare >= c) & (Fare <= d)`.  A null age or fare
makes the Polars comparison null and `filter` drops rows with a null mask,
so such rows are excluded. -/
def rangeFilter (a b c d : ℚ) (rows : List Passenger) : List Passenger :=
  rows.filter (fun r =>
    match r.age, r.fare with
    | some x, some y =>
      decide (a ≤ x) && decide (x ≤ b) && decide (c ≤ y) && decide (y ≤ d)
    | _, _ => false)

/-- C4: every row kept by the numeric range filter has a non-null age and
fare lying within the inclusive bounds, and every input row that is not kept
has a null age or fare or violates at least one of the four bounds. -/
theorem range_filter_correct (a b c d : ℚ) (rows : List Passenger) :
    (∀ r ∈ rangeFilter a b c d rows, ∃ x y, r.age = some x ∧ r.fare = some y ∧
        a ≤ x ∧ x ≤ b ∧ c ≤ y ∧ y ≤ d) ∧
    (∀ r ∈ rows, r ∉ rangeFilter a b c d rows →
        r.age = none ∨ r.fare = none ∨
        (∃ x, r.age = some x ∧ (x < a ∨ b < x)) ∨
        (∃ y, r.fare = some y ∧ (y < c ∨ d < y))) := by
  constructor
  · intro r hr
    rw [rangeFilter, List.mem_filter] at hr
    obtain ⟨-, hpred⟩ := hr
    cases hx : r.age with
    | none =>
      rw [hx] at hpred
      simp at hpred
    | some x =>
      cases hy : r.fare with
      | none =>
        rw [hx, hy] at hpred
        simp at hpred
      | some y =>
        rw [hx, hy] at hpred
        simp only [Bool.and_eq_true, decide_eq_true_eq] at hpred
        exact ⟨x, y, rfl, rfl, hpred.1.1.1, hpred.1.1.2, hpred.1.2, hpred.2⟩
  · intro r hr hnot
    rw [rangeFilter] at hnot
    cases hx : r.age with
    | none => exact Or.inl rfl
    | some x =>
      cases hy : r.fare with
      | none => exact Or.inr (Or.inl rfl)
      | some y =>
        by_cases h1 : a ≤ x
        · by_cases h2 : x ≤ b
          · by_cases h3 : c ≤ y
            · by_cases h4 : y ≤ d
              · exfalso
                apply hnot
                rw [List.mem_filter]
                refine ⟨hr, ?_⟩
                rw [hx, hy]
                simp only [Bool.and_eq_true, decide_eq_true_eq]
                exact ⟨⟨⟨h1, h2⟩, h3⟩, h4⟩
              · exact Or.inr (Or.inr (Or.inr ⟨y, rfl, Or.inr (lt_of_not_le h4)⟩))
            · exact Or.inr (Or.inr (Or.inr ⟨y, rfl, Or.inl (lt_of_not_le h3)⟩))
          · exact Or.inr (Or.inr (Or.inl ⟨x, rfl, Or.inr (lt_of_not_le h2)⟩))
        · exact Or.inr (Or.inr (Or.inl ⟨x, rfl, Or.inl (lt_of_not_le h1)⟩))

def inRangePassenger : Passenger :=
  { passengerId := 1, survived := 1, pclass := 1, name := ['a'], sex := ['m'],
    age := some 22, fare := some 50, embarked := none }

def nullAgePassenger : Passenger :=
  { passengerId := 2, survived := 0, pclass := 3, name := ['b'], sex := ['f'],
    age := none, fare := some 10, embarked := none }

/-- Witness for C4: with age range [18, 60] and fare range [0, 100], the
kept row has in-range age and fare and the dropped row has a null age. -/
theorem range_filter_correct_witness :
    (∃ x y, inRangePassenger.age = some x ∧ inRangePassenger.fare = some y ∧
        (18 : ℚ) ≤ x ∧ x ≤ 60 ∧ (0 : ℚ) ≤ y ∧ y ≤ 100) ∧
    (nullAgePassenger.age = none ∨ nullAgePassenger.fare = none ∨
        (∃ x, nullAgePassenger.age = some x ∧ (x < (18 : ℚ) ∨ (60 : ℚ) < x)) ∨
        (∃ y, nullAgePassenger.fare = some y ∧ (y < (0 : ℚ) ∨ (100 : ℚ) < y))) :=
  ⟨(range_filter_correct 18 60 0 100 [inRangePassenger, nullAgePassenger]).1
      inRangePassenger (by decide),
    (range_filter_correct 18 60 0 100 [inRangePassenger, nullAgePassenger]).2
      nullAgePassenger (by decide) (by decide)⟩

/-- Minimum of a list of rationals (Polars `Series.min`); `none` on the
empty list. -/
def minQ : List ℚ → Option ℚ
  | [] => none
  | x :: xs =>
    some (match minQ xs with
      | none => x
      | some m => min x m)

/-- Maximum of a list of rationals (Polars `Series.max`); `none` on the
empty list. -/
def maxQ : List ℚ → Option ℚ
  | [] => none
  | x :: xs =>
    some (match maxQ xs with
      | none => x
      | some m => max x m)

/-- Python `int()` applied to an exact numeric value: truncation toward
zero. -/
def ratTrunc (x : ℚ) : Int := if 0 ≤ x then ⌊x⌋ else ⌈x⌉

/-- The non-null ages, `df["Age"].drop_nulls()` (app.py line 264). -/
def agesOf (rows : List Passenger) : List ℚ := rows.filterMap Passenger.age

/-- The non-null fares, `df["Fare"].drop_nulls()` (app.py line 265). -/
def faresOf (rows : List Passenger) : List ℚ := rows.filterMap Passenger.fare

/-- App.py lines 266-271 and 287: `min_age = int(age_series.min())` (0 when
every age is null) and the age slider's default lower value
`max(min_age, 18)`. -/
def defaultAgeLower (rows : List Passenger) : Int :=
  max (match minQ (agesOf rows) with
    | none => 0
    | some m => ratTrunc m) 18

/-- App.py lines 272-277 and 296-297: `max_fare = float(fare_series.max())`
(0.0 when every fare is null) and the fare slider's default upper value
`min(max_fare, 300.0)`. -/
def defaultFareUpper (rows : List Passenger) : ℚ :=
  min (match maxQ (faresOf rows) with
    | none => 0
    | some m => m) 300

theorem minQ_spec : ∀ l : List ℚ, l ≠ [] → ∃ m, minQ l = some m ∧ m ∈ l ∧ ∀ x ∈ l, m ≤ x
  | [], h => absurd rfl h
  | x :: xs, _ => by
    cases hxs : minQ xs with
    | none =>
      have hnil : xs = [] := by
        cases xs with
        | nil => rfl
        | cons a as => simp [minQ] at hxs
      subst hnil
      refine ⟨x, by simp [minQ], by simp, ?_⟩
      intro y hy
      simp at hy
      exact le_of_eq hy.symm
    | some m =>
      have hne : xs ≠ [] := by
        intro h
        rw [h] at hxs
        simp [minQ] at hxs
      obtain ⟨m2, hm2, hmem, hlb⟩ := minQ_spec xs hne
      have hmm : m2 = m := by
        rw [hm2] at hxs
        injection hxs
      subst hmm
      refine ⟨min x m2, ?_, ?_, ?_⟩
      · show minQ (x :: xs) = some (min x m2)
        rw [show minQ (x :: xs) = some (match minQ xs with
          | none => x
          | some m => min x m) from rfl, hm2]
      · rcases le_total x m2 with h | h
        · rw [min_eq_left h]
          exact List.mem_cons_self x xs
        · rw [min_eq_right h]
          exact List.mem_cons_of_mem x hmem
      · intro y hy
        rcases List.mem_cons.mp hy with rfl | hy
        · exact min_le_left _ _
        · exact le_trans (min_le_right x m2) (hlb y hy)

theorem maxQ_spec : ∀ l : List ℚ, l ≠ [] → ∃ m, maxQ l = some m ∧ m ∈ l ∧ ∀ x ∈ l, x ≤ m
  | [], h => absurd rfl h
  | x :: xs, _ => by
    cases hxs : maxQ xs with
    | none =>
      have hnil : xs = [] := by
        cases xs with
        | nil => rfl
        | cons a as => simp [maxQ] at hxs
      subst hnil
      refine ⟨x, by simp [maxQ], by simp, ?_⟩
      intro y hy
      simp at hy
      exact le_of_eq hy
    | some m =>
      have hne : xs ≠ [] := by
        intro h
        rw [h] at hxs
        simp [maxQ] at hxs
      obtain ⟨m2, hm2, hmem, hub⟩ := maxQ_spec xs hne
      have hmm : m2 = m := by
        rw [hm2] at hxs
        injection hxs
      subst hmm
      refine ⟨max x m2, ?_, ?_, ?_⟩
      · show maxQ (x :: xs) = some (max x m2)
        rw [show maxQ (x :: xs) = some (match maxQ xs with
          | none => x
          | some m => max x m) from rfl, hm2]
      · rcases le_total x m2 with h | h
        · rw [max_eq_right h]
          exact List.mem_cons_of_mem x hmem
        · rw [max_eq_left h]
          exact List.mem_cons_self x xs
      · intro y hy
        rcases List.mem_cons.mp hy with rfl | hy
        · exact le_max_left _ _
        · exact le_trans (hub y hy) (le_max_right x m2)

/-- C8 (amended): on first render, for a dataset with at least one non-null
age and one non-null fare, the default age lower bound equals
`max(int(actual_min_age), 18)` — the actual minimum age is first truncated
toward zero by Python's `int()` — and the default fare upper bound equals
`min(actual_max_fare, 300)` with the exact maximum fare. -/
theorem default_bounds_amended (rows : List Passenger)
    (ha : agesOf rows ≠ []) (hf : faresOf rows ≠ []) :
    (∃ m, m ∈ agesOf rows ∧ (∀ x ∈ agesOf rows, m ≤ x) ∧
        defaultAgeLower rows = max (ratTrunc m) 18) ∧
    (∃ M, M ∈ faresOf rows ∧ (∀ y ∈ faresOf rows, y ≤ M) ∧
        defaultFareUpper rows = min M 300) := by
  constructor
  · obtain ⟨m, hm, hmem, hlb⟩ := minQ_spec _ ha
    refine ⟨m, hmem, hlb, ?_⟩
    rw [defaultAgeLower, hm]
  · obtain ⟨M, hM, hmem, hub⟩ := maxQ_spec _ hf
    refine ⟨M, hmem, hub, ?_⟩
    rw [defaultFareUpper, hM]

/-- Witness for C8 (amended) on a concrete two-row table with ages `[22]`
and fares `[50, 10]`. -/
theorem default_bounds_amended_witness :
    (∃ m, m ∈ agesOf [inRangePassenger, nullAgePassenger] ∧
        (∀ x ∈ agesOf [inRangePassenger, nullAgePassenger], m ≤ x) ∧
        defaultAgeLower [inRangePassenger, nullAgePassenger] = max (ratTrunc m) 18) ∧
    (∃ M, M ∈ faresOf [inRangePassenger, nullAgePassenger] ∧
        (∀ y ∈ faresOf [inRangePassenger, nullAgePassenger], y ≤ M) ∧
        defaultFareUpper [inRangePassenger, nullAgePassenger] = min M 300) :=
  default_bounds_amended [inRangePassenger, nullAgePassenger] (by decide) (by decide)

def fractionalAgePassenger : Passenger :=
  { passengerId := 3, survived := 1, pclass := 2, name := ['c'], sex := ['f'],
    age := some (39 / 2), fare := some 10, embarked := none }

/-- Counterexample to C8 as stated: with a single non-null age 19.5, the
code defaults the age slider lower bound to `max(int(19.5), 18) = 19`,
while the claimed formula `max(actual_min_age, 18)` gives 19.5. -/
theorem default_age_trunc_cex :
    ((defaultAgeLower [fractionalAgePassenger] : ℚ) ≠ max (39 / 2 : ℚ) 18) := by
  have h1 : agesOf [fractionalAgePassenger] = [39 / 2] := rfl
  have h2 : defaultAgeLower [fractionalAgePassenger]
      = max (ratTrunc (39 / 2)) 18 := by
    rw [defaultAgeLower, h1, show minQ [(39 : ℚ) / 2] = some (39 / 2) from rfl]
  rw [h2]
  have h3 : ratTrunc (39 / 2) = 19 := by
    rw [ratTrunc, if_pos (by norm_num)]
    norm_num
  rw [h3]
  have h4 : max (39 / 2 : ℚ) 18 = 39 / 2 := max_eq_left (by norm_num)
  rw [h4]
  norm_num

theorem startsWithTxt_iff : ∀ s p : Txt, startsWithTxt s p = true ↔ ∃ rest, s = p ++ rest
  | s, [] => by
    simp [startsWithTxt]
  | [], d :: p => by
    constructor
    · intro h
      exact Bool.noConfusion h
    · rintro ⟨rest, h⟩
      exact List.noConfusion h
  | c :: s, d :: p => by
    rw [show startsWithTxt (c :: s) (d :: p) = (decide (c = d) && startsWithTxt s p) from rfl,
      Bool.and_eq_true, decide_eq_true_eq, startsWithTxt_iff s p]
    constructor
    · rintro ⟨rfl, rest, rfl⟩
      exact ⟨rest, rfl⟩
    · rintro ⟨rest, h⟩
      rw [List.cons_append] at h
      injection h with h1 h2
      exact ⟨h1, rest, h2⟩

/-- Correctness of the literal matcher: it reports exactly the existence of
a literal substring occurrence, with no pattern interpretation. -/
theorem containsLit_iff : ∀ hay needle : Txt,
    containsLit hay needle = true ↔ ∃ u w, hay = u ++ needle ++ w
  | [], needle => by
    rw [show containsLit [] needle = startsWithTxt [] needle from rfl, startsWithTxt_iff]
    constructor
    · rintro ⟨rest, h⟩
      exact ⟨[], rest, by simpa using h⟩
    · rintro ⟨u, w, h⟩
      rw [List.append_assoc] at h
      obtain ⟨hu, hnw⟩ := List.append_eq_nil.mp h.symm
      obtain ⟨hn, hw⟩ := List.append_eq_nil.mp hnw
      exact ⟨[], by simp [hn]⟩
  | c :: t, needle => by
    rw [show containsLit (c :: t) needle
        = (startsWithTxt (c :: t) needle || containsLit t needle) from rfl,
      Bool.or_eq_true, startsWithTxt_iff, containsLit_iff t needle]
    constructor
    · rintro (⟨rest, h⟩ | ⟨u, w, h⟩)
      · exact ⟨[], rest, by simpa using h⟩
      · exact ⟨c :: u, w, by simp [h]⟩
    · rintro ⟨u, w, h⟩
      cases u with
      | nil => exact Or.inl ⟨w, by simpa using h⟩
      | cons b u2 =>
        rw [List.cons_append, List.cons_append] at h
        injection h with h1 h2
        exact Or.inr ⟨u2, w, h2⟩

/-- Lowercasing, Polars `str.to_lowercase` (app.py line 78), modelled
character by character. -/
def toLowerTxt (s : Txt) : Txt := s.map Char.toLower

/-- A table cell: text, or null.  The `cast(pl.Utf8)` of app.py line 74 is
modelled as the identity on stored text; a null stays null under the cast. -/
abbrev Cell := Option Txt

/-- A row: an association list from column name to cell. -/
abbrev Row := List (Txt × Cell)

/-- Reading one column of a row; a missing column reads as null. -/
def getCell (r : Row) (c : Txt) : Cell := (List.lookup c r).getD none

/-- A table: column names plus rows (spec §3, Dataset). -/
structure Table where
  cols : List Txt
  rows : List Row
deriving DecidableEq

/-- The row predicate of the substring filter (app.py lines 74-78): cast the
chosen column to text and test literal containment, lowercasing both the
cell text and the query when the match is case-insensitive.  A null cell
yields a null predicate, which `filter` drops. -/
def rowMatches (r : Row) (c : Txt) (q : Txt) (caseSensitive : Bool) : Bool :=
  match getCell r c with
  | none => false
  | some v =>
    if caseSensitive then containsLit v q
    else containsLit (toLowerTxt v) (toLowerTxt q)

/-- The substring filter of `display_basic_info` (app.py lines 73-88): the
filter only runs when a column is chosen (a non-empty name, matching Python
truthiness), the query is non-empty and the column exists in the table;
otherwise the full table is shown. -/
def substringFilter (t : Table) (col : Option Txt) (q : Txt) (caseSensitive : Bool) :
    List Row :=
  match col with
  | none => t.rows
  | some c =>
    if c ≠ [] ∧ q ≠ [] ∧ c ∈ t.cols then
      t.rows.filter (fun r => rowMatches r c q caseSensitive)
    else t.rows

/-- C5: with an unset filter column, an empty query string, or a column that
is not in the table, the substring filter returns the full unfiltered table,
with the same row count. -/
theorem substring_filter_default (t : Table) (col : Option Txt) (q : Txt) (cs : Bool)
    (h : col = none ∨ q = [] ∨ ∀ c, col = some c → c ∉ t.cols) :
    substringFilter t col q cs = t.rows ∧
      (substringFilter t col q cs).length = t.rows.length := by
  have he : substringFilter t col q cs = t.rows := by
    cases col with
    | none => rfl
    | some c =>
      rcases h with h | h | h
      · exact Option.noConfusion h
      · simp only [substringFilter]
        rw [if_neg]
        rintro ⟨-, hq, -⟩
        exact hq h
      · simp only [substringFilter]
        rw [if_neg]
        rintro ⟨-, -, hc⟩
        exact h c rfl hc
  exact ⟨he, by rw [he]⟩

def sampleRow : Row := [(['N', 'a', 'm', 'e'], some ['B', 'o', 'b'])]

def sampleTable : Table := { cols := [['N', 'a', 'm', 'e']], rows := [sampleRow] }

/-- Witness for C5: an empty query on a concrete one-row table returns the
full table. -/
theorem substring_filter_default_witness :
    substringFilter sampleTable (some ['N', 'a', 'm', 'e']) [] false = sampleTable.rows ∧
      (substringFilter sampleTable (some ['N', 'a', 'm', 'e']) [] false).length
        = sampleTable.rows.length :=
  substring_filter_default sampleTable (some ['N', 'a', 'm', 'e']) [] false
    (Or.inr (Or.inl rfl))

/-- C6: for every table, every column choice and every non-empty query with
case-sensitivity false, the substring filter is idempotent: filtering its
own output (as a table with the same columns) by the same criteria yields
the same rows. -/
theorem substring_filter_idempotent (t : Table) (col : Option Txt) (q : Txt) (hq : q ≠ []) :
    substringFilter { cols := t.cols, rows := substringFilter t col q false } col q false
      = substringFilter t col q false := by
  cases col with
  | none => rfl
  | some c =>
    by_cases hc : c ≠ [] ∧ q ≠ [] ∧ c ∈ t.cols
    · have h1 : substringFilter t (some c) q false
          = t.rows.filter (fun r => rowMatches r c q false) := by
        simp only [substringFilter]
        rw [if_pos hc]
      have h2 : substringFilter
            { cols := t.cols, rows := t.rows.filter (fun r => rowMatches r c q false) }
            (some c) q false
          = (t.rows.filter (fun r => rowMatches r c q false)).filter
              (fun r => rowMatches r c q false) := by
        simp only [substringFilter]
        rw [if_pos hc]
      rw [h1, h2, List.filter_filter]
      simp only [Bool.and_self]
    · have h1 : substringFilter t (some c) q false = t.rows := by
        simp only [substringFilter]
        rw [if_neg hc]
      have h2 : substringFilter { cols := t.cols, rows := t.rows } (some c) q false
          = t.rows := by
        simp only [substringFilter]
        rw [if_neg hc]
      rw [h1, h2]

/-- Witness for C6 on a concrete table and the non-empty query `"b"`. -/
theorem substring_filter_idempotent_witness :
    substringFilter
      (Table.mk sampleTable.cols
        (substringFilter sampleTable (some ['N', 'a', 'm', 'e']) ['b'] false))
      (some ['N', 'a', 'm', 'e']) ['b'] false
      = substringFilter sampleTable (some ['N', 'a', 'm', 'e']) ['b'] false :=
  substring_filter_idempotent sampleTable (some ['N', 'a', 'm', 'e']) ['b'] (by decide)

/-- C7: when the filter actually runs (a chosen column that exists, and a
non-empty query), it keeps exactly the rows whose cell in that column is
non-null and contains the query as a literal substring — no pattern or regex
interpretation — with both the cell text and the query lowercased first when
case-sensitivity is false. -/
theorem substring_filter_members (t : Table) (c : Txt) (q : Txt) (cs : Bool) (r : Row)
    (hc : c ≠ []) (hq : q ≠ []) (hmem : c ∈ t.cols) :
    r ∈ substringFilter t (some c) q cs ↔
      r ∈ t.rows ∧ ∃ v, getCell r c = some v ∧
        (if cs then ∃ u w, v = u ++ q ++ w
          else ∃ u w, toLowerTxt v = u ++ toLowerTxt q ++ w) := by
  have h1 : substringFilter t (some c) q cs
      = t.rows.filter (fun r => rowMatches r c q cs) := by
    simp only [substringFilter]
    rw [if_pos ⟨hc, hq, hmem⟩]
  rw [h1, List.mem_filter]
  apply and_congr_right
  intro hmm2
  cases hv : getCell r c with
  | none =>
    constructor
    · intro hmatch
      rw [rowMatches, hv] at hmatch
      exact Bool.noConfusion hmatch
    · rintro ⟨v, hv2, -⟩
      exact Option.noConfusion hv2
  | some v =>
    cases cs with
    | true =>
      have h2 : rowMatches r c q true = containsLit v q := by
        rw [rowMatches, hv]
        rfl
      rw [h2, containsLit_iff]
      constructor
      · rintro ⟨u, w, hw⟩
        exact ⟨v, rfl, ⟨u, w, hw⟩⟩
      · rintro ⟨v2, hv2, hin⟩
        injection hv2 with h3
        rw [h3]
        exact hin
    | false =>
      have h2 : rowMatches r c q false = containsLit (toLowerTxt v) (toLowerTxt q) := by
        rw [rowMatches, hv]
        rfl
      rw [h2, containsLit_iff]
      constructor
      · rintro ⟨u, w, hw⟩
        exact ⟨v, rfl, ⟨u, w, hw⟩⟩
      · rintro ⟨v2, hv2, hin⟩
        injection hv2 with h3
        rw [h3]
        exact hin

/-- Witness for C7 at a concrete table, row, column and query: the row
`(Name ↦ "Bob")` under the case-insensitive query `"b"`. -/
theorem substring_filter_members_witness :
    sampleRow ∈ substringFilter sampleTable (some ['N', 'a', 'm', 'e']) ['b'] false ↔
      sampleRow ∈ sampleTable.rows ∧ ∃ v, getCell sampleRow ['N', 'a', 'm', 'e'] = some v ∧
        (if false then ∃ u w, v = u ++ ['b'] ++ w
          else ∃ u w, toLowerTxt v = u ++ toLowerTxt ['b'] ++ w) :=
  substring_filter_members sampleTable ['N', 'a', 'm', 'e'] ['b'] false sampleRow
    (by decide) (by decide) (by decide)

theorem length_filter_eq_count {α : Type} [DecidableEq α] (v : α) (xs : List α) :
    (xs.filter (fun x => decide (x = v))).length = List.count v xs := by
  induction xs with
  | nil => rfl
  | cons a t ih =>
    by_cases h : a = v
    · simp [List.filter_cons, List.count_cons, h, ih, beq_iff_eq]
    · simp [List.filter_cons, List.count_cons, h, ih, beq_iff_eq]

/-- The counts of `value_counts` add up to the number of rows grouped. -/
theorem valueCounts_sum_length {α : Type} [DecidableEq α] (xs : List α) :
    ((valueCounts xs).map Prod.snd).sum = xs.length := by
  rw [valueCounts, List.map_map]
  have h1 : (Prod.snd ∘ fun v => (v, (xs.filter (fun x => decide (x = v))).length))
      = fun v => (xs.filter (fun x => decide (x = v))).length := rfl
  rw [h1]
  have h2 : (fun v => (xs.filter (fun x => decide (x = v))).length)
      = fun v => List.count v xs := by
    funext v
    exact length_filter_eq_count v xs
  rw [h2]
  exact List.sum_map_count_dedup_eq_length xs

theorem sum_map_div_q {α : Type} (l : List α) (f : α → ℚ) (c : ℚ) :
    (l.map (fun x => f x / c)).sum = (l.map f).sum / c := by
  induction l with
  | nil => simp
  | cons a t ih => simp [ih, add_div]

/-- The proportion table (app.py lines 96-102 and 188-193): `value_counts`,
then a proportion column `count / count.sum()`, sorted by descending
proportion. -/
def proportionTable {α : Type} [DecidableEq α] (xs : List α) : List (α × ℚ) :=
  sortBy (fun p q => decide (q.2 ≤ p.2))
    ((valueCounts xs).map (fun p =>
      (p.1, (p.2 : ℚ) / ((((valueCounts xs).map Prod.snd).sum : Nat) : ℚ))))

/-- C9: over exact rationals, the proportions within a single grouping sum
to exactly 1 for every non-empty list of grouped values (hence to 1.0 within
any floating-point tolerance). -/
theorem proportions_sum_one {α : Type} [DecidableEq α] (xs : List α) (h : xs ≠ []) :
    ((proportionTable xs).map Prod.snd).sum = 1 := by
  rw [proportionTable]
  rw [List.Perm.sum_eq ((sortBy_perm _ _).map Prod.snd)]
  rw [List.map_map]
  have h1 : (Prod.snd ∘ fun p : α × Nat =>
      (p.1, (p.2 : ℚ) / (((((valueCounts xs).map Prod.snd).sum : Nat)) : ℚ)))
      = fun p : α × Nat => (p.2 : ℚ) / ((((valueCounts xs).map Prod.snd).sum : Nat) : ℚ) := rfl
  rw [h1, sum_map_div_q]
  have h2 : ((valueCounts xs).map (fun p : α × Nat => (p.2 : ℚ))).sum
      = ((((valueCounts xs).map Prod.snd).sum : Nat) : ℚ) := by
    rw [Nat.cast_list_sum, List.map_map]
    rfl
  rw [h2, valueCounts_sum_length]
  have hlen : ((xs.length : Nat) : ℚ) ≠ 0 := by
    rw [ne_eq, Nat.cast_eq_zero]
    exact fun h0 => h (List.length_eq_zero.mp h0)
  exact div_self hlen

def sexSample : List Txt :=
  [['m', 'a', 'l', 'e'], ['m', 'a', 'l', 'e'], ['f', 'e', 'm', 'a', 'l', 'e']]

/-- Witness for C9 at the spec §8 concrete scenario: grouped sexes
[male, male, female]. -/
theorem proportions_sum_one_witness :
    ((proportionTable sexSample).map Prod.snd).sum = 1 :=
  proportions_sum_one sexSample (by decide)

/-- C10: both filters preserve the dataset row order — each filtered result
is a subsequence of its input rows, in the same relative order. -/
theorem filters_preserve_order (t : Table) (col : Option Txt) (q : Txt) (cs : Bool)
    (a b c d : ℚ) (rows : List Passenger) :
    (substringFilter t col q cs).Sublist t.rows ∧
      (rangeFilter a b c d rows).Sublist rows := by
  refine ⟨?_, List.filter_sublist rows⟩
  cases col with
  | none => exact List.Sublist.refl t.rows
  | some c2 =>
    simp only [substringFilter]
    split
    · exact List.filter_sublist t.rows
    · exact List.Sublist.refl t.rows
